import Mathlib

/-!
Shallow embedding of the mdash documentation-site scripts: the client-side
search widget (index builder, query engine, highlighting and debounce
utilities) and the keyboard-navigation widget's cursor operations.

JS strings are modelled as `List Char`; JS string methods map as follows:
`trim` ↦ dropping whitespace at both ends, `toLowerCase` ↦ `Char.toLower`
mapped over the list, `includes` ↦ list-infix containment, `substring(0,n)`
↦ `List.take n`, `startsWith('#')`/`substring(1)` ↦ head pattern match.
DOM nodes referenced by records (`element`) are opaque to every operation
the claims concern and are not carried as data.
-/

namespace Mdash

/-- JS `s.toLowerCase()` on a char-list string (ASCII-faithful). -/
def toLowerL (s : List Char) : List Char := s.map Char.toLower

/-- JS `s.trim()`: strip leading and trailing whitespace. -/
def trimL (s : List Char) : List Char :=
  ((s.dropWhile Char.isWhitespace).reverse.dropWhile Char.isWhitespace).reverse

/-- JS `haystack.includes(needle)`: substring containment, as a Bool. -/
def includesL (needle haystack : List Char) : Bool :=
  decide (needle <:+: haystack)

/-- One searchable record, as pushed by `buildSearchIndex`.  The source also
stores an `element` DOM reference, which no indexed/query operation reads;
the source's `section` field (a breadcrumb label) is named `sectionLabel`
here because `section` is reserved in Lean. -/
structure Record where
  id : List Char
  title : List Char
  content : List Char
  sectionLabel : List Char
  deriving DecidableEq, Repr

/-- A `.doc-section` container as the builder sees it: its `id` property
(`''` when the attribute is absent), the text of the first `h1, h2, h3`
heading when one exists, and the `textContent` of each `p, li, td,
.info-box` descendant in document order. -/
structure DocSection where
  id : List Char
  heading : Option (List Char)
  texts : List (List Char)
  deriving DecidableEq, Repr

/-- A `.sidebar-nav a` element: its `href` attribute (`none` when absent),
its `textContent`, and the `textContent` of the `.nav-group-title` of its
closest `.nav-group` ancestor (`none` when either is missing). -/
structure NavLink where
  href : Option (List Char)
  text : List Char
  groupTitle : Option (List Char)
  deriving DecidableEq, Repr

/-- The page state `buildSearchIndex` reads: the `.doc-section` containers
and the `.sidebar-nav a` links, each in document order. -/
structure Dom where
  sections : List DocSection
  navLinks : List NavLink
  deriving DecidableEq, Repr

/-- Source `findParentSection`: look up the sidebar link whose `href` is `'#' + id`
and return the trimmed text of its nav-group title (`''` when the element
has no id, no link matches, or the link sits in no titled group). -/
def findParentSection (dom : Dom) (id : List Char) : List Char :=
  if id = [] then []
  else
    match dom.navLinks.find? (fun l => l.href = some ('#' :: id)) with
    | some l =>
      match l.groupTitle with
      | some g => trimL g
      | none => []
    | none => []

/-- The `title` of a section record: trimmed heading text, `''` without a
heading (`heading ? heading.textContent.trim() : ''`). -/
def sectionTitle (s : DocSection) : List Char :=
  match s.heading with
  | some h => trimL h
  | none => []

/-- The `content` of a section record: concatenate `' ' + el.textContent`
over the qualifying descendants, trim, then `substring(0, 500)`. -/
def sectionContent (texts : List (List Char)) : List Char :=
  (trimL (texts.foldl (fun acc t => acc ++ ' ' :: t) [])).take 500

/-- The `sections.forEach` body of `buildSearchIndex`: push a record when
the section's title or content is non-empty, else leave the array alone. -/
def pushSection (dom : Dom) (acc : List Record) (s : DocSection) : List Record :=
  let title := sectionTitle s
  let content := sectionContent s.texts
  if title ≠ [] ∨ content ≠ [] then
    acc ++ [{ id := s.id, title := title, content := content,
              sectionLabel := findParentSection dom s.id }]
  else acc

/-- The `navItems.forEach` body of `buildSearchIndex`: for an in-page link
(`href` starting with `#`), push a record for the target id unless some
record already carries that id
(`searchIndex.some(item => item.id === targetId)`). -/
def pushNavLink (acc : List Record) (l : NavLink) : List Record :=
  match l.href with
  | some ('#' :: targetId) =>
    if acc.any (fun r => r.id = targetId) then acc
    else
      acc ++ [{ id := targetId, title := trimL l.text, content := [],
                sectionLabel := (match l.groupTitle with
                                 | some g => g
                                 | none => []) }]
  | _ => acc

/-- Source `buildSearchIndex`: starting from the current `searchIndex` array
(`prev` — the source pushes onto the module-level array without clearing
it), push a record for every `.doc-section` whose title or content is
non-empty, then push a record for every in-page sidebar link whose target
id is not already present. -/
def buildSearchIndex (prev : List Record) (dom : Dom) : List Record :=
  dom.navLinks.foldl pushNavLink (dom.sections.foldl (pushSection dom) prev)

/-- The normalization `searchInput.value.trim().toLowerCase()`. -/
def normalizeQuery (raw : List Char) : List Char := toLowerL (trimL raw)

/-- One record's match test in `handleSearch`:
`item.title.toLowerCase().includes(query) || item.content.toLowerCase().includes(query)`. -/
def recordMatches (query : List Char) (r : Record) : Bool :=
  includesL query (toLowerL r.title) || includesL query (toLowerL r.content)

/-- The result list of `handleSearch` for an already-normalized query:
`searchIndex.filter(...).slice(0, 10)`. -/
def searchResults (query : List Char) (idx : List Record) : List Record :=
  (idx.filter (recordMatches query)).take 10

/-- What `handleSearch` leaves in the results pane: cleared (`innerHTML = ''`
on an empty normalized query), the "No results found" empty state, or the
rendered result records. -/
inductive RenderState where
  | cleared : RenderState
  | empty : List Char → RenderState
  | results : List Record → RenderState
  deriving DecidableEq, Repr

/-- Source `renderResults`: the empty state when no record matched, the result
list otherwise. -/
def renderResults (rs : List Record) (query : List Char) : RenderState :=
  if rs = [] then RenderState.empty query else RenderState.results rs

/-- Source `handleSearch`: normalize the input value; on an empty query clear the
pane and stop; otherwise filter, cap at 10 and render. -/
def handleSearch (raw : List Char) (idx : List Record) : RenderState :=
  let query := normalizeQuery raw
  if query = [] then RenderState.cleared
  else renderResults (searchResults query idx) query

/-- Source `escapeHtml`: serialize text through a detached div, which escapes
exactly `&`, `<` and `>` in text content. -/
def escapeHtml (s : List Char) : List Char :=
  s.flatMap (fun c =>
    if c = '&' then "&amp;".data
    else if c = '<' then "&lt;".data
    else if c = '>' then "&gt;".data
    else [c])

/-- The characters escaped by `escapeRegex` (`/[.*+?^${}()|[\]\\]/g`). -/
def regexMetaChars : List Char :=
  ['.', '*', '+', '?', '^', '$', '\x7b', '\x7d', '(', ')', '|', '[', ']', '\\']

/-- Source `escapeRegex`: prefix every regex metacharacter with a backslash
(`string.replace(/[.*+?^${}()|[\]\\]/g, '\\$&')`). -/
def escapeRegex (s : List Char) : List Char :=
  s.flatMap (fun c => if c ∈ regexMetaChars then ['\\', c] else [c])

/-- Interpreter for purely literal regex patterns: a pattern consisting of
non-metacharacter literals and backslash-escaped metacharacters denotes
the literal character string returned; any other pattern (a bare
metacharacter, a trailing backslash, a non-meta escape) is rejected with
`none`.  Used to state that `escapeRegex` output matches only literal
text. -/
def parseEscaped : List Char → Option (List Char)
  | [] => some []
  | c :: rest =>
    if c = '\\' then
      match rest with
      | [] => none
      | d :: rest' =>
        if d ∈ regexMetaChars then (parseEscaped rest').map (fun t => d :: t) else none
    else if c ∈ regexMetaChars then none
    else (parseEscaped rest).map (fun t => c :: t)

/-- The literal `<mark>` open tag inserted by `highlightMatch`. -/
def markOpen : List Char := ['<', 'm', 'a', 'r', 'k', '>']

/-- The literal `</mark>` close tag inserted by `highlightMatch`. -/
def markClose : List Char := ['<', '/', 'm', 'a', 'r', 'k', '>']

/-- Fuel-indexed scanner behind `markAll`; the fuel (one unit per consumed
character, always instantiated to the text's length) only makes the
recursion structural. -/
def markAllF (q : List Char) : Nat → List Char → List Char
  | _, [] => []
  | 0, t => t
  | fuel + 1, c :: rest =>
    if 1 ≤ q.length ∧ toLowerL ((c :: rest).take q.length) = toLowerL q then
      markOpen ++ (c :: rest).take q.length ++ markClose
        ++ markAllF q fuel ((c :: rest).drop q.length)
    else
      c :: markAllF q fuel rest

/-- The global case-insensitive replace
`escaped.replace(new RegExp(escapeRegex(query), 'gi'), '<mark>$1</mark>')`:
scan left to right; at each position where the (non-empty) query matches
case-insensitively, wrap the matched slice in mark tags and resume after
it, otherwise keep the character and move on. -/
def markAll (q t : List Char) : List Char := markAllF q t.length t

/-- Source `highlightMatch`: escape the text; with an empty query return it as is,
otherwise mark every case-insensitive occurrence of the query. -/
def highlightMatch (text q : List Char) : List Char :=
  if q = [] then escapeHtml text else markAll q (escapeHtml text)

/-- Source `truncate`: return the text unchanged when within the limit, else cut
at the limit and append `...`. -/
def truncate (text : List Char) (len : Nat) : List Char :=
  if text.length ≤ len then text else text.take len ++ "...".data

/-- Fuel-indexed scanner behind `occCount` (same shape as `markAllF`). -/
def occCountF (q : List Char) : Nat → List Char → Nat
  | _, [] => 0
  | 0, _ => 0
  | fuel + 1, c :: rest =>
    if 1 ≤ q.length ∧ toLowerL ((c :: rest).take q.length) = toLowerL q then
      1 + occCountF q fuel ((c :: rest).drop q.length)
    else
      occCountF q fuel rest

/-- Number of case-insensitive occurrences of a non-empty pattern under
the left-to-right, non-overlapping scan a global regex replace performs —
the specification of how many slices `markAll` wraps. -/
def occCount (q t : List Char) : Nat := occCountF q t.length t

/-- Number of non-overlapping occurrences of the `<mark>` open tag,
scanning left to right — the count of marked regions in a rendered
string. -/
def countTag : List Char → Nat
  | '<' :: 'm' :: 'a' :: 'r' :: 'k' :: '>' :: rest => 1 + countTag rest
  | _ :: rest => countTag rest
  | [] => 0

/-- The timer state machine produced by `debounce(fn, delay)` driven by a
timestamped event list: each input event cancels the pending timer (if
any) and schedules a fresh one `delay` later holding the current argument;
a pending timer whose due time has arrived by the next event fires first.
Returns the (fireTime, argument) list of executions of `fn`. -/
def debounceAux {α : Type} (delay : Nat) :
    List (Nat × α) → Option (Nat × α) → List (Nat × α)
  | [], none => []
  | [], some p => [p]
  | (t, a) :: rest, none => debounceAux delay rest (some (t + delay, a))
  | (t, a) :: rest, some (ft, fa) =>
    if ft ≤ t then (ft, fa) :: debounceAux delay rest (some (t + delay, a))
    else debounceAux delay rest (some (t + delay, a))

/-- Run the debounced handler from the idle state over a full event
trace (all timers eventually fire once input stops). -/
def debounceRun {α : Type} (delay : Nat) (events : List (Nat × α)) :
    List (Nat × α) :=
  debounceAux delay events none

/-! Concrete fixtures mirroring the spec's scenarios, used to instantiate
the theorems below on closed inputs. -/

/-- Demo container `{id:"intro", heading:"Introduction", text:"Welcome to mdash"}`. -/
def introSection : DocSection :=
  { id := "intro".data, heading := some "Introduction".data,
    texts := ["Welcome to mdash".data] }

/-- Demo container `{id:"install", heading:"Installation", text:"Run the installer"}`. -/
def installSection : DocSection :=
  { id := "install".data, heading := some "Installation".data,
    texts := ["Run the installer".data] }

/-- Demo page with the two scenario containers and no sidebar. -/
def demoDom : Dom := { sections := [introSection, installSection], navLinks := [] }

/-- Index built once from `demoDom`. -/
def demoIdx : List Record := buildSearchIndex [] demoDom

/-- The record the build produces for the `install` container. -/
def installRec : Record :=
  { id := "install".data, title := "Installation".data,
    content := "Run the installer".data, sectionLabel := [] }

/-- Two containers whose `id` attribute is absent (both read back as `''`). -/
def domDupIds : Dom :=
  { sections := [{ id := [], heading := some "Alpha".data, texts := [] },
                 { id := [], heading := some "Beta".data, texts := [] }],
    navLinks := [] }

/-- Demo page with a sidebar: one link to an indexed section (`#intro`) and
one to a section with no content container (`#faq`). -/
def demoNavDom : Dom :=
  { sections := [introSection, installSection],
    navLinks := [{ href := some "#intro".data, text := "Introduction".data,
                   groupTitle := some "Basics".data },
                 { href := some "#faq".data, text := "FAQ".data,
                   groupTitle := some "Help".data }] }

/-- Fifteen records that all contain the word `config` in their content. -/
def configRecs : List Record :=
  (List.range 15).map (fun n =>
    { id := [], title := [Char.ofNat (65 + n)],
      content := "Use the config file".data, sectionLabel := [] })

end Mdash

namespace MdashNav

/-- Source `navigateNext`: step forward only while strictly before the last item
(`if (currentIndex < navItems.length - 1) currentIndex++`); JS number
arithmetic is modelled on `Int` since `currentIndex` starts at `-1`. -/
def navigateNext (len : Nat) (i : Int) : Int :=
  if i < (len : Int) - 1 then i + 1 else i

/-- Source `navigatePrev`: step back only while strictly positive
(`if (currentIndex > 0) currentIndex--`). -/
def navigatePrev (i : Int) : Int :=
  if 0 < i then i - 1 else i

/-- Source `navigateFirst`: jump to index 0. -/
def navigateFirst : Int := 0

/-- Source `navigateLast`: jump to `navItems.length - 1`. -/
def navigateLast (len : Nat) : Int := (len : Int) - 1

/-- The four cursor operations of the keyboard-navigation widget. -/
inductive NavOp where
  | next : NavOp
  | prev : NavOp
  | first : NavOp
  | last : NavOp
  deriving DecidableEq, Repr

/-- Apply one cursor operation to `currentIndex`. -/
def applyNavOp (len : Nat) (i : Int) : NavOp → Int
  | NavOp.next => navigateNext len i
  | NavOp.prev => navigatePrev i
  | NavOp.first => navigateFirst
  | NavOp.last => navigateLast len

/-- Run a sequence of cursor operations from a starting index. -/
def runNavOps (len : Nat) (ops : List NavOp) (i : Int) : Int :=
  ops.foldl (applyNavOp len) i

end MdashNav

namespace Mdash

/-- Every member of a `take`-prefix of a filtered list at an index whose
preceding matches number fewer than `n` reaches the capped result. -/
lemma mem_take_filter {α : Type} (p : α → Bool) (l : List α) (n i : Nat)
    (h : i < l.length) (hp : p l[i] = true)
    (hc : ((l.take i).filter p).length < n) :
    l[i] ∈ (l.filter p).take n := by
  have e1 : l.take i ++ [l[i]] = l.take (i + 1) := List.take_concat_get' l i h
  have e2 : (l.take (i + 1)).filter p = (l.take i).filter p ++ [l[i]] := by
    rw [← e1, List.filter_append]
    simp [hp]
  have hlen : ((l.take (i + 1)).filter p).length ≤ n := by
    rw [e2]
    simp only [List.length_append, List.length_cons, List.length_nil]
    omega
  have htp : l.take (i + 1) <+: l := List.take_prefix (i + 1) l
  have hpre : (l.take (i + 1)).filter p <+: (l.filter p).take n :=
    List.prefix_take_iff.mpr ⟨htp.filter p, hlen⟩
  exact hpre.subset (by rw [e2]; exact List.mem_append_right _ (by simp))

/-- C1: for a non-empty normalized query, the result list contains only
records whose lowercased title or content contains the query, and a
matching record is absent only when ten earlier index records already
matched. -/
theorem search_exact_matches (raw : List Char) (idx : List Record)
    (_hq : normalizeQuery raw ≠ []) :
    (∀ r ∈ searchResults (normalizeQuery raw) idx,
      recordMatches (normalizeQuery raw) r = true) ∧
    (∀ i, ∀ h : i < idx.length, recordMatches (normalizeQuery raw) idx[i] = true →
      idx[i] ∈ searchResults (normalizeQuery raw) idx ∨
        10 ≤ ((idx.take i).filter (recordMatches (normalizeQuery raw))).length) := by
  constructor
  · intro r hr
    exact List.of_mem_filter (List.mem_of_mem_take hr)
  · intro i h hm
    by_cases hc : ((idx.take i).filter (recordMatches (normalizeQuery raw))).length < 10
    · exact Or.inl (mem_take_filter _ idx 10 i h hm hc)
    · exact Or.inr (by omega)

/-- C1 witness: querying `install` over the demo index returns a record
matching on its title. -/
theorem search_exact_matches_witness :
    recordMatches (normalizeQuery "install".data) installRec = true :=
  (search_exact_matches "install".data demoIdx (by decide)).1 installRec (by decide)

/-- C5: results are a subsequence of the index (index order preserved),
never exceed ten records, and reach exactly ten whenever at least ten
records match. -/
theorem search_cap_and_order (q : List Char) (idx : List Record) :
    List.Sublist (searchResults q idx) idx ∧
    (searchResults q idx).length ≤ 10 ∧
    (10 ≤ (idx.filter (recordMatches q)).length →
      (searchResults q idx).length = 10) := by
  refine ⟨?_, ?_, ?_⟩
  · exact (List.take_sublist _ _).trans (List.filter_sublist _)
  · simp only [searchResults, List.length_take]
    omega
  · intro hten
    simp only [searchResults, List.length_take]
    omega

/-- C5 witness: with fifteen matching records the engine returns exactly
ten, as a subsequence of the original order. -/
theorem search_cap_and_order_witness :
    (searchResults "config".data configRecs).length = 10 ∧
    List.Sublist (searchResults "config".data configRecs) configRecs :=
  ⟨(search_cap_and_order "config".data configRecs).2.2 (by decide),
   (search_cap_and_order "config".data configRecs).1⟩

/-- C6: an input that is empty or all whitespace clears the pane — the
handler renders neither the full index nor the no-results empty state. -/
theorem search_whitespace_cleared (raw : List Char) (idx : List Record)
    (h : ∀ c ∈ raw, c.isWhitespace) :
    handleSearch raw idx = RenderState.cleared := by
  have h1 : raw.dropWhile Char.isWhitespace = [] := List.dropWhile_eq_nil_iff.mpr h
  have h2 : trimL raw = [] := by
    simp [trimL, h1]
  simp [handleSearch, normalizeQuery, h2, toLowerL]

/-- C6 witness: a three-space input clears the pane over the demo index. -/
theorem search_whitespace_cleared_witness :
    handleSearch "   ".data demoIdx = RenderState.cleared :=
  search_whitespace_cleared "   ".data demoIdx (by decide)

/-- C2: the index-build operation is not idempotent — rebuilding over the
unchanged demo page doubles the record count instead of reproducing the
first build, because the source never clears the module-level array. -/
theorem reindex_grows_index :
    (buildSearchIndex [] demoDom).length = 2 ∧
    (buildSearchIndex (buildSearchIndex [] demoDom) demoDom).length = 4 ∧
    buildSearchIndex (buildSearchIndex [] demoDom) demoDom ≠
      buildSearchIndex [] demoDom := by
  exact ⟨by decide, by decide, by decide⟩

/-- C3 counterexample: two containers without an `id` attribute both index
as `id = ''`, so a single build already violates pairwise-distinct ids. -/
theorem build_ids_duplicate_counterexample :
    (buildSearchIndex [] domDupIds).map Record.id = [[], []] ∧
    ¬ ((buildSearchIndex [] domDupIds).map Record.id).Nodup := by
  exact ⟨by decide, by decide⟩

end Mdash

namespace Mdash

/-- The section pass appends to the incoming array a list of ids drawn, in
order, from the containers' own ids. -/
lemma sectionPass_ids (dom : Dom) :
    ∀ (ss : List DocSection) (prev : List Record),
      ∃ l, (ss.foldl (pushSection dom) prev).map Record.id
            = prev.map Record.id ++ l ∧
          List.Sublist l (ss.map DocSection.id)
  | [], prev => ⟨[], by simp⟩
  | s :: ss, prev => by
    obtain ⟨l, hl, hsub⟩ := sectionPass_ids dom ss (pushSection dom prev s)
    rw [List.foldl_cons]
    by_cases hc : sectionTitle s ≠ [] ∨ sectionContent s.texts ≠ []
    · refine ⟨s.id :: l, ?_, ?_⟩
      · rw [hl]
        simp [pushSection, hc]
      · simpa using List.Sublist.cons₂ s.id hsub
    · refine ⟨l, ?_, ?_⟩
      · rw [hl]
        simp [pushSection, hc]
      · refine hsub.trans ?_
        rw [List.map_cons]
        exact List.sublist_cons_self s.id (ss.map DocSection.id)

/-- One nav-link step never introduces a duplicate id: the push is guarded
by `searchIndex.some(item => item.id === targetId)`. -/
lemma pushNavLink_nodup (acc : List Record) (l : NavLink)
    (h : (acc.map Record.id).Nodup) :
    ((pushNavLink acc l).map Record.id).Nodup := by
  unfold pushNavLink
  split
  · split
    · exact h
    · rename_i targetId hany
      simp only [List.map_append, List.map_cons, List.map_nil]
      rw [List.nodup_append]
      refine ⟨h, List.nodup_singleton _, ?_⟩
      intro a ha hb
      simp only [List.mem_singleton] at hb
      subst hb
      obtain ⟨r, hr, hrid⟩ := List.mem_map.mp ha
      exact hany (by simp only [List.any_eq_true]
                     exact ⟨r, hr, by simp [hrid]⟩)
  · exact h

/-- The whole nav pass preserves pairwise-distinct ids. -/
lemma navPass_nodup :
    ∀ (ls : List NavLink) (acc : List Record),
      (acc.map Record.id).Nodup →
      ((ls.foldl pushNavLink acc).map Record.id).Nodup
  | [], _, h => h
  | l :: ls, acc, h =>
    navPass_nodup ls (pushNavLink acc l) (pushNavLink_nodup acc l h)

/-- C3, amended: a nav-link discovery of an id already in the index is
skipped (first write wins), so a single build from an empty index has
pairwise-distinct record ids whenever the content containers themselves
carry pairwise-distinct ids.  (Without that proviso the claim fails: the
section pass never de-duplicates — see the counterexample with two
id-less containers.) -/
theorem build_ids_nodup_of_sections_nodup (dom : Dom)
    (h : (dom.sections.map DocSection.id).Nodup) :
    ((buildSearchIndex [] dom).map Record.id).Nodup := by
  obtain ⟨l, hl, hsub⟩ := sectionPass_ids dom dom.sections []
  have hsec : ((dom.sections.foldl (pushSection dom) []).map Record.id).Nodup := by
    rw [hl]
    simpa using (h.sublist hsub)
  exact navPass_nodup dom.navLinks _ hsec

/-- C3 witness: demo page with a sidebar; the `#intro` link is skipped as
already indexed, the `#faq` link is added, and all ids stay distinct. -/
theorem build_ids_nodup_witness :
    (buildSearchIndex [] demoNavDom).map Record.id
      = ["intro".data, "install".data, "faq".data] ∧
    ((buildSearchIndex [] demoNavDom).map Record.id).Nodup :=
  ⟨by decide, build_ids_nodup_of_sections_nodup demoNavDom (by decide)⟩

/-- C8: the indexed content is a hard cut — never longer than 500, a
prefix of the trimmed concatenation (no ellipsis appended), and unchanged
when already within bounds — while the rendering-side `truncate` at 150
returns short text unchanged and appends `...` exactly on overflow. -/
theorem content_hard_cut_and_excerpt :
    (∀ texts : List (List Char),
      (sectionContent texts).length ≤ 500 ∧
      sectionContent texts <+: trimL (texts.foldl (fun acc t => acc ++ ' ' :: t) []) ∧
      ((trimL (texts.foldl (fun acc t => acc ++ ' ' :: t) [])).length ≤ 500 →
        sectionContent texts = trimL (texts.foldl (fun acc t => acc ++ ' ' :: t) []))) ∧
    (∀ text : List Char,
      (text.length ≤ 150 → truncate text 150 = text) ∧
      (150 < text.length → truncate text 150 = text.take 150 ++ "...".data)) := by
  constructor
  · intro texts
    refine ⟨?_, List.take_prefix _ _, fun hle => List.take_of_length_le hle⟩
    simp only [sectionContent, List.length_take]
    omega
  · intro text
    constructor
    · intro hle
      simp [truncate, hle]
    · intro hgt
      rw [truncate, if_neg (by omega)]

/-- C8 witness: a short container text is stored verbatim, and a short
excerpt is rendered without an ellipsis. -/
theorem content_hard_cut_and_excerpt_witness :
    sectionContent ["Welcome to mdash".data] = "Welcome to mdash".data ∧
    truncate "Welcome".data 150 = "Welcome".data := by
  constructor
  · have hshort := (content_hard_cut_and_excerpt.1 ["Welcome to mdash".data]).2.2 (by decide)
    rw [hshort]
    decide
  · exact (content_hard_cut_and_excerpt.2 "Welcome".data).1 (by decide)

end Mdash

namespace MdashNav

/-- C10: the cursor operations are boundary no-ops (`navigateNext` fixed
at the last index, `navigatePrev` fixed at zero and below), the jumps land
on the endpoints, and any operation sequence started inside
`[0, navItems.length - 1]` stays inside it. -/
theorem nav_cursor_bounded (len : Nat) (hlen : 1 ≤ len) :
    navigateNext len ((len : Int) - 1) = (len : Int) - 1 ∧
    (∀ i : Int, i ≤ 0 → navigatePrev i = i) ∧
    navigateFirst = 0 ∧
    navigateLast len = (len : Int) - 1 ∧
    (∀ (ops : List NavOp) (i : Int), 0 ≤ i → i ≤ (len : Int) - 1 →
      0 ≤ runNavOps len ops i ∧ runNavOps len ops i ≤ (len : Int) - 1) := by
  refine ⟨?_, ?_, rfl, rfl, ?_⟩
  · simp [navigateNext]
  · intro i hi
    simp only [navigatePrev]
    split <;> omega
  · intro ops
    induction ops with
    | nil => exact fun i h0 h1 => ⟨h0, h1⟩
    | cons op rest ih =>
      intro i h0 h1
      have hstep : 0 ≤ applyNavOp len i op ∧ applyNavOp len i op ≤ (len : Int) - 1 := by
        cases op <;>
          simp only [applyNavOp, navigateNext, navigatePrev, navigateFirst, navigateLast] <;>
          (try split) <;> omega
      have hrun : runNavOps len (op :: rest) i = runNavOps len rest (applyNavOp len i op) := rfl
      rw [hrun]
      exact ih (applyNavOp len i op) hstep.1 hstep.2

/-- C10 witness: a six-operation sequence over a three-item list keeps the
cursor within `[0, 2]`. -/
theorem nav_cursor_bounded_witness :
    0 ≤ runNavOps 3 [NavOp.next, NavOp.next, NavOp.next, NavOp.prev, NavOp.first, NavOp.last] 0 ∧
    runNavOps 3 [NavOp.next, NavOp.next, NavOp.next, NavOp.prev, NavOp.first, NavOp.last] 0 ≤ (3 : Int) - 1 :=
  (nav_cursor_bounded 3 (by decide)).2.2.2.2
    [NavOp.next, NavOp.next, NavOp.next, NavOp.prev, NavOp.first, NavOp.last] 0
    (by decide) (by decide)

end MdashNav

namespace Mdash

/-- C7: `escapeRegex` output is a purely literal pattern denoting exactly
the original query — every metacharacter is backslash-escaped — and the
match test itself is plain substring containment on lowercased fields, so
queries holding regex metacharacters match only their literal occurrences;
all the operations involved are total functions. -/
theorem escapeRegex_literal_and_matching :
    (∀ q : List Char, parseEscaped (escapeRegex q) = some q) ∧
    (∀ (q : List Char) (r : Record),
      recordMatches q r = true ↔
        (q <:+: toLowerL r.title ∨ q <:+: toLowerL r.content)) := by
  constructor
  · intro q
    induction q with
    | nil => rfl
    | cons c q' ih =>
      have hstep : escapeRegex (c :: q')
          = (if c ∈ regexMetaChars then ['\\', c] else [c]) ++ escapeRegex q' := by
        simp only [escapeRegex, List.flatMap_cons]
      by_cases hc : c ∈ regexMetaChars
      · rw [hstep, if_pos hc]
        simp [parseEscaped, hc, ih]
      · have hcb : c ≠ '\\' := by
          intro hceq
          exact hc (hceq ▸ (by decide : ('\\' : Char) ∈ regexMetaChars))
        rw [hstep, if_neg hc]
        show parseEscaped (c :: escapeRegex q') = some (c :: q')
        unfold parseEscaped
        rw [if_neg hcb, if_neg hc, ih]
        rfl
  · intro q r
    simp [recordMatches, includesL]

/-- C7 witness: the scenario query `a.b*` round-trips through the escaper
as a literal pattern. -/
theorem escapeRegex_literal_witness :
    parseEscaped (escapeRegex "a.b*".data) = some "a.b*".data :=
  escapeRegex_literal_and_matching.1 "a.b*".data

/-- A pending debounce timer due no later than every later input fires in
a burst's tail: with all gaps under the delay it never fires early, so the
whole burst yields the single execution carrying the final argument. -/
lemma debounceAux_burst {α : Type} (delay : Nat) :
    ∀ (es : List (Nat × α)) (t : Nat) (a : α),
      List.Chain' (fun x y => y.1 < x.1 + delay) ((t, a) :: es) →
      debounceAux delay es (some (t + delay, a)) =
        [((es.getLastD (t, a)).1 + delay, (es.getLastD (t, a)).2)]
  | [], t, a, _ => by simp [debounceAux]
  | (tn, an) :: es', t, a, h => by
    have h1 : tn < t + delay := (List.chain'_cons.mp h).1
    have h2 : List.Chain' (fun x y => y.1 < x.1 + delay) ((tn, an) :: es') :=
      (List.chain'_cons.mp h).2
    have hrec := debounceAux_burst delay es' tn an h2
    have hLast : ((tn, an) :: es').getLastD (t, a) = es'.getLastD (tn, an) := by
      cases es' <;> rfl
    simp only [debounceAux]
    rw [if_neg (by omega : ¬ (t + delay ≤ tn)), hrec, hLast]

/-- Executions emitted from a pending timer state keep strictly increasing
fire times, and none fires before the pending due time. -/
lemma debounceAux_sorted {α : Type} (delay : Nat) (hd : 1 ≤ delay) :
    ∀ (es : List (Nat × α)) (ft : Nat) (fa : α),
      List.Chain' (fun x y => x.1 < y.1) es →
      (∀ e ∈ es.head?, ft ≤ e.1 + delay) →
      (∀ x ∈ debounceAux delay es (some (ft, fa)), ft ≤ x.1) ∧
      List.Chain' (fun x y => x.1 < y.1) (debounceAux delay es (some (ft, fa)))
  | [], ft, fa, _, _ => by
    refine ⟨?_, by simp [debounceAux]⟩
    intro x hx
    simp only [debounceAux, List.mem_singleton] at hx
    simp [hx]
  | (t, a) :: rest, ft, fa, hsort, hHead => by
    have hs1 : List.Chain' (fun x y => x.1 < y.1) rest :=
      (List.chain'_cons'.mp hsort).2
    have hs2 : ∀ e ∈ rest.head?, t + delay ≤ e.1 + delay := by
      intro e he
      have := (List.chain'_cons'.mp hsort).1 e he
      omega
    have hft : ft ≤ t + delay := hHead (t, a) rfl
    obtain ⟨hall, hchain⟩ := debounceAux_sorted delay hd rest (t + delay) a hs1 hs2
    by_cases hle : ft ≤ t
    · refine ⟨?_, ?_⟩
      · intro x hx
        simp only [debounceAux, if_pos hle] at hx
        rcases List.mem_cons.mp hx with hx | hx
        · simp [hx]
        · exact le_trans (by omega) (hall x hx)
      · simp only [debounceAux, if_pos hle]
        refine List.chain'_cons'.mpr ⟨?_, hchain⟩
        intro y hy
        have hy1 : t + delay ≤ y.1 := hall y (List.mem_of_mem_head? hy)
        show ft < y.1
        omega
    · refine ⟨?_, ?_⟩
      · intro x hx
        simp only [debounceAux, if_neg hle] at hx
        exact le_trans hft (hall x hx)
      · simp only [debounceAux, if_neg hle]
        exact hchain

/-- C9: over any strictly time-ordered input trace the debounced handler's
executions have strictly increasing fire times (none ever overlaps
another), and when every consecutive gap is below the 150ms-style delay
the whole trace collapses to one execution evaluating the final argument —
every earlier pending evaluation having been discarded by the timer
reset. -/
theorem debounce_collapse_serial {α : Type} (delay t : Nat) (a : α)
    (es : List (Nat × α)) (hd : 1 ≤ delay)
    (hsort : List.Chain' (fun x y => x.1 < y.1) ((t, a) :: es)) :
    List.Chain' (fun x y => x.1 < y.1) (debounceRun delay ((t, a) :: es)) ∧
    (List.Chain' (fun x y => y.1 < x.1 + delay) ((t, a) :: es) →
      debounceRun delay ((t, a) :: es) =
        [((es.getLastD (t, a)).1 + delay, (es.getLastD (t, a)).2)]) := by
  have hrun : debounceRun delay ((t, a) :: es)
      = debounceAux delay es (some (t + delay, a)) := rfl
  constructor
  · rw [hrun]
    have hs1 := (List.chain'_cons'.mp hsort).2
    have hs2 : ∀ e ∈ es.head?, t + delay ≤ e.1 + delay := by
      intro e he
      have := (List.chain'_cons'.mp hsort).1 e he
      omega
    exact (debounceAux_sorted delay hd es (t + delay) a hs1 hs2).2
  · intro hburst
    rw [hrun]
    exact debounceAux_burst delay es t a hburst

/-- C9 witness: three keystrokes 100ms apart under a 150ms delay produce
exactly one execution, of the last query, 150ms after the last event. -/
theorem debounce_collapse_serial_witness :
    debounceRun 150 [(0, 1), (100, 2), (200, 3)] = [(350, 3)] := by
  rw [(debounce_collapse_serial 150 0 1 [(100, 2), (200, 3)] (by decide)
        (by simp [List.chain'_cons])).2
      (by simp [List.chain'_cons])]
  decide

end Mdash

namespace Mdash

/-- The fuel argument of `markAllF` is irrelevant once it covers the text
length. -/
lemma markAllF_congr (q : List Char) :
    ∀ (f₁ : Nat) (t : List Char) (f₂ : Nat), t.length ≤ f₁ → t.length ≤ f₂ →
      markAllF q f₁ t = markAllF q f₂ t := by
  intro f₁
  induction f₁ with
  | zero =>
    intro t f₂ h₁ _
    have ht : t = [] := by
      cases t with
      | nil => rfl
      | cons a b => simp at h₁
    subst ht
    cases f₂ <;> rfl
  | succ f ih =>
    intro t f₂ h₁ h₂
    cases t with
    | nil => cases f₂ <;> rfl
    | cons c rest =>
      cases f₂ with
      | zero => simp at h₂
      | succ g =>
        simp only [markAllF]
        by_cases hcond : 1 ≤ q.length ∧ toLowerL ((c :: rest).take q.length) = toLowerL q
        · rw [if_pos hcond, if_pos hcond]
          have hlen : ((c :: rest).drop q.length).length ≤ f ∧
              ((c :: rest).drop q.length).length ≤ g := by
            simp only [List.length_drop, List.length_cons]
            simp only [List.length_cons] at h₁ h₂
            have := hcond.1
            omega
          rw [ih _ g hlen.1 hlen.2]
        · rw [if_neg hcond, if_neg hcond]
          have hlen : rest.length ≤ f ∧ rest.length ≤ g := by
            simp only [List.length_cons] at h₁ h₂
            omega
          rw [ih _ g hlen.1 hlen.2]

/-- One-step unfolding of `markAll` on a non-empty text. -/
lemma markAll_cons (q : List Char) (c : Char) (rest : List Char) :
    markAll q (c :: rest) =
      if 1 ≤ q.length ∧ toLowerL ((c :: rest).take q.length) = toLowerL q then
        markOpen ++ (c :: rest).take q.length ++ markClose
          ++ markAll q ((c :: rest).drop q.length)
      else
        c :: markAll q rest := by
  show markAllF q (rest.length + 1) (c :: rest) = _
  simp only [markAllF]
  by_cases hcond : 1 ≤ q.length ∧ toLowerL ((c :: rest).take q.length) = toLowerL q
  · rw [if_pos hcond, if_pos hcond]
    have hd : ((c :: rest).drop q.length).length ≤ rest.length := by
      simp only [List.length_drop, List.length_cons]
      have := hcond.1
      omega
    rw [markAllF_congr q rest.length ((c :: rest).drop q.length)
        (((c :: rest).drop q.length).length) hd le_rfl]
    rfl
  · rw [if_neg hcond, if_neg hcond]
    rfl

/-- The fuel argument of `occCountF` is irrelevant once it covers the text
length. -/
lemma occCountF_congr (q : List Char) :
    ∀ (f₁ : Nat) (t : List Char) (f₂ : Nat), t.length ≤ f₁ → t.length ≤ f₂ →
      occCountF q f₁ t = occCountF q f₂ t := by
  intro f₁
  induction f₁ with
  | zero =>
    intro t f₂ h₁ _
    have ht : t = [] := by
      cases t with
      | nil => rfl
      | cons a b => simp at h₁
    subst ht
    cases f₂ <;> rfl
  | succ f ih =>
    intro t f₂ h₁ h₂
    cases t with
    | nil => cases f₂ <;> rfl
    | cons c rest =>
      cases f₂ with
      | zero => simp at h₂
      | succ g =>
        simp only [occCountF]
        by_cases hcond : 1 ≤ q.length ∧ toLowerL ((c :: rest).take q.length) = toLowerL q
        · rw [if_pos hcond, if_pos hcond]
          have hlen : ((c :: rest).drop q.length).length ≤ f ∧
              ((c :: rest).drop q.length).length ≤ g := by
            simp only [List.length_drop, List.length_cons]
            simp only [List.length_cons] at h₁ h₂
            have := hcond.1
            omega
          rw [ih _ g hlen.1 hlen.2]
        · rw [if_neg hcond, if_neg hcond]
          have hlen : rest.length ≤ f ∧ rest.length ≤ g := by
            simp only [List.length_cons] at h₁ h₂
            omega
          rw [ih _ g hlen.1 hlen.2]

/-- One-step unfolding of `occCount` on a non-empty text. -/
lemma occCount_cons (q : List Char) (c : Char) (rest : List Char) :
    occCount q (c :: rest) =
      if 1 ≤ q.length ∧ toLowerL ((c :: rest).take q.length) = toLowerL q then
        1 + occCount q ((c :: rest).drop q.length)
      else
        occCount q rest := by
  show occCountF q (rest.length + 1) (c :: rest) = _
  simp only [occCountF]
  by_cases hcond : 1 ≤ q.length ∧ toLowerL ((c :: rest).take q.length) = toLowerL q
  · rw [if_pos hcond, if_pos hcond]
    have hd : ((c :: rest).drop q.length).length ≤ rest.length := by
      simp only [List.length_drop, List.length_cons]
      have := hcond.1
      omega
    rw [occCountF_congr q rest.length ((c :: rest).drop q.length)
        (((c :: rest).drop q.length).length) hd le_rfl]
    rfl
  · rw [if_neg hcond, if_neg hcond]
    rfl

/-- A character other than `<` never starts a `<mark>` tag. -/
lemma countTag_cons_ne (c : Char) (rest : List Char) (hc : c ≠ '<') :
    countTag (c :: rest) = countTag rest := by
  rw [countTag.eq_def]
  split
  · rename_i h
    simp at h
    exact absurd h.1 hc
  · rename_i heq
    obtain ⟨h1, h2⟩ := List.cons_eq_cons.mp heq
    subst h2
    rfl
  · rename_i heq
    simp at heq

/-- Scanning past a `<`-free prefix finds no tag in it. -/
lemma countTag_append_safe (a b : List Char) (h : ∀ c ∈ a, c ≠ '<') :
    countTag (a ++ b) = countTag b := by
  induction a with
  | nil => rfl
  | cons c a ih =>
    rw [List.cons_append, countTag_cons_ne c _ (h c (by simp))]
    exact ih (fun x hx => h x (List.mem_cons_of_mem _ hx))

/-- An inserted open tag contributes exactly one to the count. -/
lemma countTag_open_append (x : List Char) :
    countTag (markOpen ++ x) = 1 + countTag x := rfl

/-- An inserted close tag contributes nothing to the count. -/
lemma countTag_close_append (x : List Char) :
    countTag (markClose ++ x) = countTag x := by
  have h1 : countTag (markClose ++ x)
      = countTag ('/' :: 'm' :: 'a' :: 'r' :: 'k' :: '>' :: x) := rfl
  rw [h1]
  exact countTag_append_safe ['/', 'm', 'a', 'r', 'k', '>'] x (by decide)

/-- Escaped HTML text contains no raw `<` character. -/
lemma escapeHtml_no_lt (t : List Char) : ∀ c ∈ escapeHtml t, c ≠ '<' := by
  induction t with
  | nil =>
    intro c hc
    simp [escapeHtml] at hc
  | cons a t ih =>
    have hstep : escapeHtml (a :: t)
        = (if a = '&' then "&amp;".data
           else if a = '<' then "&lt;".data
           else if a = '>' then "&gt;".data
           else [a]) ++ escapeHtml t := by
      simp only [escapeHtml, List.flatMap_cons]
    intro c hc
    rw [hstep] at hc
    rcases List.mem_append.mp hc with hx | hx
    · by_cases h1 : a = '&'
      · rw [if_pos h1] at hx
        exact (by decide : ∀ y ∈ "&amp;".data, y ≠ '<') c hx
      · rw [if_neg h1] at hx
        by_cases h2 : a = '<'
        · rw [if_pos h2] at hx
          exact (by decide : ∀ y ∈ "&lt;".data, y ≠ '<') c hx
        · rw [if_neg h2] at hx
          by_cases h3 : a = '>'
          · rw [if_pos h3] at hx
            exact (by decide : ∀ y ∈ "&gt;".data, y ≠ '<') c hx
          · rw [if_neg h3] at hx
            have hca : c = a := by simpa using hx
            exact hca ▸ h2
    · exact ih c hx

/-- On `<`-free text the replace wraps exactly as many regions as the scan
finds occurrences. -/
lemma countTag_markAll (q : List Char) :
    ∀ (n : Nat) (t : List Char), t.length ≤ n → (∀ c ∈ t, c ≠ '<') →
      countTag (markAll q t) = occCount q t := by
  intro n
  induction n with
  | zero =>
    intro t ht _
    have htn : t = [] := by
      cases t with
      | nil => rfl
      | cons a b => simp at ht
    subst htn
    rfl
  | succ m ih =>
    intro t ht hlt
    cases t with
    | nil => rfl
    | cons c rest =>
      rw [markAll_cons, occCount_cons]
      by_cases hcond : 1 ≤ q.length ∧ toLowerL ((c :: rest).take q.length) = toLowerL q
      · rw [if_pos hcond, if_pos hcond]
        have hassoc :
            markOpen ++ (c :: rest).take q.length ++ markClose
              ++ markAll q ((c :: rest).drop q.length)
            = markOpen ++ ((c :: rest).take q.length
                ++ (markClose ++ markAll q ((c :: rest).drop q.length))) := by
          simp [List.append_assoc]
        rw [hassoc, countTag_open_append,
            countTag_append_safe _ _ (fun x hx => hlt x (List.mem_of_mem_take hx)),
            countTag_close_append]
        have hdlen : ((c :: rest).drop q.length).length ≤ m := by
          simp only [List.length_drop, List.length_cons]
          simp only [List.length_cons] at ht
          have := hcond.1
          omega
        rw [ih _ hdlen (fun x hx => hlt x ((List.drop_sublist _ _).subset hx))]
      · rw [if_neg hcond, if_neg hcond]
        rw [countTag_cons_ne c _ (hlt c (by simp))]
        exact ih rest (by simp only [List.length_cons] at ht; omega)
          (fun x hx => hlt x (List.mem_cons_of_mem _ hx))

/-- C4, amended: for a non-empty query the global, case-insensitive replace
marks every left-to-right non-overlapping occurrence of the query in the
escaped field text — the number of marked regions equals the occurrence
count — not only the first occurrence. -/
theorem highlight_marks_every_occurrence (text q : List Char) (hq : q ≠ []) :
    countTag (highlightMatch text q) = occCount q (escapeHtml text) := by
  unfold highlightMatch
  rw [if_neg hq]
  exact countTag_markAll q (escapeHtml text).length (escapeHtml text) le_rfl
    (escapeHtml_no_lt text)

/-- C4 counterexample: in the field text `aa` with query `a` the renderer
wraps both occurrences in mark tags; a first-occurrence-only highlighter
would produce `<mark>a</mark>a` with a single tag. -/
theorem highlight_not_first_only :
    highlightMatch "aa".data "a".data = "<mark>a</mark><mark>a</mark>".data ∧
    countTag (highlightMatch "aa".data "a".data) = 2 ∧
    highlightMatch "aa".data "a".data ≠ "<mark>a</mark>a".data := by
  exact ⟨by decide, by decide, by decide⟩

/-- C4 witness: on the two-occurrence input the mark count agrees with the
occurrence scan, which finds two. -/
theorem highlight_marks_every_occurrence_witness :
    countTag (highlightMatch "aa".data "a".data)
      = occCount "a".data (escapeHtml "aa".data) ∧
    occCount "a".data (escapeHtml "aa".data) = 2 :=
  ⟨highlight_marks_every_occurrence "aa".data "a".data (by decide), by decide⟩

end Mdash
